import Mathlib

/-!
Verification of the memberstack-ai-docs core: the markdown-to-index scanner
(src/indexer.js, class MemberstackIndexer) and the marker-delimited section
patcher (bin/install.js, methods appendToFile / removeFromFile).

Text is modelled as List Char (JS strings after split, UTF-16 subtleties
aside: the corpus and all markers are ASCII).  JS regexes are translated to
explicit scanning functions; each definition carries a comment naming the
source construct it embeds.
-/

/-- Shorthand turning a Lean string literal into the List Char model. -/
def s2l (s : String) : List Char := s.data

/-- The JS regex class backslash-s (whitespace), also the character set removed
by String.prototype.trimEnd: space, tab, LF, CR, VT, FF, NBSP, Ogham space,
the U+2000..U+200A range, LS, PS, NNBSP, MMSP, ideographic space, BOM. -/
def jsWs (c : Char) : Bool :=
  c == ' ' || c == '\t' || c == '\n' || c == '\r' ||
  c == '\x0b' || c == '\x0c' ||
  c.val == 0xA0 || c.val == 0x1680 ||
  (decide (0x2000 ≤ c.val) && decide (c.val ≤ 0x200A)) ||
  c.val == 0x2028 || c.val == 0x2029 || c.val == 0x202F ||
  c.val == 0x205F || c.val == 0x3000 || c.val == 0xFEFF

/-- JS regex line terminators (the characters the dot never matches). -/
def isLineTerm (c : Char) : Bool :=
  c == '\n' || c == '\r' || c.val == 0x2028 || c.val == 0x2029

/-- The JS regex class backslash-w: ASCII letters, digits, underscore. -/
def isWordChar (c : Char) : Bool :=
  (decide ('a' ≤ c) && decide (c ≤ 'z')) ||
  (decide ('A' ≤ c) && decide (c ≤ 'Z')) ||
  (decide ('0' ≤ c) && decide (c ≤ '9')) || c == '_'

/-- ASCII lowercasing, modelling String.prototype.toLowerCase on the ASCII
corpus handled by the indexer. -/
def toLowerStr (s : List Char) : List Char := s.map Char.toLower

/-- Does pat occur at the very front of s (pattern first, text second)? -/
def leadsWith : List Char → List Char → Bool
  | [], _ => true
  | _ :: _, [] => false
  | p :: ps, c :: cs => p == c && leadsWith ps cs

/-- First index at which pat occurs in s, if any: the model of a successful
JS String.prototype.indexOf / the position scanned to by a regex engine.
indexOf of the empty pattern is 0, as in JS. -/
def firstOcc : List Char → List Char → Option Nat
  | [], pat => if leadsWith pat [] then some 0 else none
  | c :: t, pat =>
    if leadsWith pat (c :: t) then some 0
    else (firstOcc t pat).map (· + 1)

/-- JS String.prototype.includes. -/
def includesS (s pat : List Char) : Bool := (firstOcc s pat).isSome

/-- JS String.prototype.indexOf, with its -1 sentinel for a missing pattern. -/
def indexOfI (s pat : List Char) : Int :=
  match firstOcc s pat with
  | some n => (n : Int)
  | none => -1

/-- JS String.prototype.trimEnd. -/
def trimEnd (s : List Char) : List Char := (s.reverse.dropWhile jsWs).reverse

/-- JS String.prototype.split on a single newline character: n newlines give
n+1 pieces, trailing newline included. -/
def splitNL : List Char → List (List Char)
  | [] => [[]]
  | c :: t =>
    if c = '\n' then [] :: splitNL t
    else
      match splitNL t with
      | [] => [[c]]
      | h :: r => (c :: h) :: r

/-! ## The scanner state (src/indexer.js, parseDocumentation) -/

/-- One method descriptor as built by parseDocumentation (indexer.js:33-41).
description and parameters are declared there but never filled. -/
structure MethodRec where
  name : List Char
  category : List Char
  lineNumber : Nat
  signature : List Char
  description : List Char
  returns : List Char
  parameters : List (List Char)
deriving DecidableEq, Repr

/-- Indexer state: the two scan-local slots (currentCategory, currentMethod)
and the line counter, together with the accumulated this.methods,
this.categories and this.searchKeywords of the MemberstackIndexer object. -/
structure ScanState where
  currentCategory : List Char
  currentMethod : Option MethodRec
  lineNumber : Nat
  methods : List MethodRec
  categories : List (List Char × List MethodRec)
  searchKeywords : List (List Char × List (List Char))
deriving DecidableEq, Repr

/-- The category-header regex (indexer.js:21-22): a line of shape
hash, whitespace-plus, captured group of dot-plus up to end of line.
Returns the captured group.  In the degenerate case where everything after
the hash is whitespace, the greedy engine backtracks and captures the final
whitespace character provided it is not a line terminator. -/
def matchCatHeader : List Char → Option (List Char)
  | '#' :: rest =>
    let w := rest.takeWhile jsWs
    let r := rest.dropWhile jsWs
    if w.isEmpty then none
    else if r.isEmpty then
      match rest.getLast? with
      | some c => if isLineTerm c || decide (rest.length < 2) then none else some [c]
      | none => none
    else if r.any isLineTerm then none else some r
  | _ => none

/-- The category keyword dispatch (indexer.js:23-27), applied to the
lowercased captured header; an unrecognized header keeps the category. -/
def categoryFromHeader (header current : List Char) : List Char :=
  if includesS header (s2l "authentication") then (s2l "authentication")
  else if includesS header (s2l "member") then (s2l "members")
  else if includesS header (s2l "plan") || includesS header (s2l "subscription") then (s2l "plans")
  else if includesS header (s2l "ui") || includesS header (s2l "component") then (s2l "ui")
  else if includesS header (s2l "advanced") then (s2l "advanced")
  else current

/-- The method-heading regex (indexer.js:31): three hashes, whitespace-plus,
a captured word-chars-plus name, then a literal pair of parentheses; not
anchored at end of line.  Returns the captured name. -/
def methodHeadMatch : List Char → Option (List Char)
  | '#' :: '#' :: '#' :: rest =>
    let w := rest.takeWhile jsWs
    let afterW := rest.dropWhile jsWs
    let name := afterW.takeWhile isWordChar
    let afterName := afterW.drop name.length
    if w.isEmpty || name.isEmpty then none
    else
      match afterName with
      | '(' :: ')' :: _ => some name
      | _ => none
  | _ => none

/-- The section-heading test (indexer.js:61): two hashes then whitespace. -/
def hh2Match : List Char → Bool
  | '#' :: '#' :: c :: _ => jsWs c
  | _ => false

/-- Attempt of the signature regex (indexer.js:46) at the front of s:
literal memberstack-dot, captured word-chars-plus, literal open paren,
captured non-close-paren-star, literal close paren. -/
def sigAt (s : List Char) : Option (List Char × List Char) :=
  if leadsWith (s2l "memberstack.") s then
    let rest := s.drop (s2l "memberstack.").length
    let name := rest.takeWhile isWordChar
    let afterName := rest.drop name.length
    if name.isEmpty then none
    else
      match afterName with
      | '(' :: r2 =>
        let params := r2.takeWhile (fun c => c != ')')
        (match r2.drop params.length with
         | ')' :: _ => some (name, params)
         | _ => none)
      | _ => none
  else none

/-- Left-to-right scan for the first position where the signature regex
matches, as the JS engine does. -/
def findSig : List Char → Option (List Char × List Char)
  | [] => none
  | c :: t =>
    match sigAt (c :: t) with
    | some r => some r
    | none => findSig t

/-- Attempt of the return-type regex (indexer.js:54) at the front of s:
literal Promise-open-angle, captured non-close-angle-plus, close angle. -/
def retAt (s : List Char) : Option (List Char) :=
  if leadsWith (s2l "Promise<") s then
    let rest := s.drop (s2l "Promise<").length
    let inner := rest.takeWhile (fun c => c != '>')
    if inner.isEmpty then none
    else
      match rest.drop inner.length with
      | '>' :: _ => some inner
      | _ => none
  else none

/-- Left-to-right scan for the first position where the return-type regex
matches. -/
def findRet : List Char → Option (List Char)
  | [] => none
  | c :: t =>
    match retAt (c :: t) with
    | some r => some r
    | none => findRet t

/-- addToCats models the categories update inside addMethod
(indexer.js:79-82): create the entry on first use of a category key, then
push onto its methods list; JS object keys keep insertion order. -/
def addToCats : List (List Char × List MethodRec) → MethodRec → List (List Char × List MethodRec)
  | [], m => [(m.category, [m])]
  | (k, l) :: t, m =>
    if k = m.category then (k, l ++ [m]) :: t else (k, l) :: addToCats t m

/-- addKw models one iteration of the forEach in addSearchKeywords
(indexer.js:108-115): create the keyword entry if absent, then push the
method name only if not already present. -/
def addKw : List (List Char × List (List Char)) → List Char → List Char → List (List Char × List (List Char))
  | [], kw, n => [(kw, [n])]
  | (k, l) :: t, kw, n =>
    if k = kw then (k, if n ∈ l then l else l ++ [n]) :: t
    else (k, l) :: addKw t kw n

/-- The fixed substring-trigger table of addSearchKeywords
(indexer.js:94-106), in source order, against the lowercased name. -/
def keywordsOf (m : MethodRec) : List (List Char) :=
  let name := toLowerStr m.name
  (if includesS name (s2l "login") then [s2l "login", s2l "signin", s2l "authenticate"] else []) ++
  (if includesS name (s2l "signup") then [s2l "signup", s2l "register", s2l "create account"] else []) ++
  (if includesS name (s2l "logout") then [s2l "logout", s2l "signout"] else []) ++
  (if includesS name (s2l "password") then [s2l "password"] else []) ++
  (if includesS name (s2l "email") then [s2l "email"] else []) ++
  (if includesS name (s2l "social") then [s2l "social", s2l "oauth", s2l "google", s2l "facebook"] else []) ++
  (if includesS name (s2l "member") then [s2l "member", s2l "user", s2l "profile"] else []) ++
  (if includesS name (s2l "plan") then [s2l "plan", s2l "subscription", s2l "pricing"] else []) ++
  (if includesS name (s2l "payment") then [s2l "payment", s2l "billing", s2l "checkout"] else []) ++
  (if includesS name (s2l "update") then [s2l "update", s2l "modify", s2l "change"] else []) ++
  (if includesS name (s2l "delete") then [s2l "delete", s2l "remove"] else []) ++
  (if includesS name (s2l "get") then [s2l "get", s2l "fetch", s2l "retrieve"] else []) ++
  (if includesS name (s2l "modal") then [s2l "modal", s2l "ui", s2l "dialog"] else [])

/-- addSearchKeywords (indexer.js:88-116) as a table transformer. -/
def addSearchKeywords (table : List (List Char × List (List Char))) (m : MethodRec) :
    List (List Char × List (List Char)) :=
  (keywordsOf m).foldl (fun t kw => addKw t kw m.name) table

/-- addMethod (indexer.js:75-86): push onto this.methods, the category side
table, and the keyword index. -/
def addMethodState (st : ScanState) (m : MethodRec) : ScanState :=
  { st with
    methods := st.methods ++ [m],
    categories := addToCats st.categories m,
    searchKeywords := addSearchKeywords st.searchKeywords m }

/-- The category-slot update of one loop iteration (indexer.js:21-28). -/
def scanCategory (current : List Char) (line : List Char) : List Char :=
  match matchCatHeader line with
  | some g => categoryFromHeader (toLowerStr g) current
  | none => current

/-- The method-heading step (indexer.js:31-42): a matching heading
overwrites the currentMethod slot with a fresh record. -/
def openSlot (prev : Option MethodRec) (line cat : List Char) (ln : Nat) : Option MethodRec :=
  match methodHeadMatch line with
  | some name =>
    some { name := name, category := cat, lineNumber := ln,
           signature := [], description := [], returns := [], parameters := [] }
  | none => prev

/-- The signature capture (indexer.js:44-50) applied to the currentMethod
slot: an unconditional assignment on every matching line. -/
def captureSig (line : List Char) : Option MethodRec → Option MethodRec
  | some m =>
    if includesS line (s2l "await memberstack.") then
      match findSig line with
      | some (n, p) => some { m with signature := n ++ ['('] ++ p ++ [')'] }
      | none => some m
    else some m
  | none => none

/-- The return-type capture (indexer.js:52-58) applied to the currentMethod
slot: an unconditional assignment on every matching line. -/
def captureRet (line : List Char) : Option MethodRec → Option MethodRec
  | some m =>
    if includesS line (s2l "Promise<") then
      match findRet line with
      | some r => some { m with returns := (s2l "Promise<") ++ r ++ ['>'] }
      | none => some m
    else some m
  | none => none

/-- One iteration of the line loop of parseDocumentation (indexer.js:17-67),
in source order: line counter, category header, method heading (which
overwrites the currentMethod slot), signature capture, return-type capture,
then the flush check (indexer.js:60-66), whose comparison line is built
from the currentMethod name as it stands at that point. -/
def stepLine (st : ScanState) (line : List Char) : ScanState :=
  let ln := st.lineNumber + 1
  let cat := scanCategory st.currentCategory line
  match captureRet line (captureSig line (openSlot st.currentMethod line cat ln)) with
  | some m =>
    if (methodHeadMatch line).isSome || hh2Match line then
      if line ≠ (s2l "### ") ++ m.name ++ (s2l "()") then
        { addMethodState { st with currentCategory := cat, lineNumber := ln } m with
          currentMethod := none }
      else
        { st with currentCategory := cat, currentMethod := some m, lineNumber := ln }
    else
      { st with currentCategory := cat, currentMethod := some m, lineNumber := ln }
  | none =>
    { st with currentCategory := cat, currentMethod := none, lineNumber := ln }

/-- The fresh indexer of the MemberstackIndexer constructor together with
the initial loop locals of parseDocumentation (category general, no open
method, line counter zero). -/
def initState : ScanState :=
  { currentCategory := s2l "general", currentMethod := none, lineNumber := 0,
    methods := [], categories := [], searchKeywords := [] }

/-- The end-of-input flush of parseDocumentation (indexer.js:70-72): a
still-open method is added (the loop local currentMethod simply dies
afterwards in the source). -/
def finishScan (st : ScanState) : ScanState :=
  match st.currentMethod with
  | some m => addMethodState st m
  | none => st

/-- parseDocumentation (indexer.js:11-73): split on newlines, fold the line
step, then flush a still-open method at end of input. -/
def parseDocumentation (content : List Char) : ScanState :=
  finishScan ((splitNL content).foldl stepLine initState)

/-! ## generateIndex (src/indexer.js, lines 118-174) -/

/-- One element of the allMethods projection (indexer.js:164-170). -/
structure AllMethodEntry where
  name : List Char
  category : List Char
  signature : List Char
  returns : List Char
  docLocation : List Char
deriving DecidableEq, Repr

/-- The curated authentication list (indexer.js:120-129). -/
def authMethodNames : List (List Char) :=
  [s2l "loginMemberEmailPassword", s2l "signupMemberEmailPassword",
   s2l "loginMemberPasswordless", s2l "signupMemberPasswordless",
   s2l "logoutMember", s2l "sendMemberResetPasswordEmail",
   s2l "resetMemberPassword", s2l "updateMemberPassword"]

/-- The curated member-management list (indexer.js:132-140). -/
def memberMethodNames : List (List Char) :=
  [s2l "getCurrentMember", s2l "updateMember", s2l "getMemberMetaData",
   s2l "updateMemberMetaData", s2l "deleteMember", s2l "getMemberJSON",
   s2l "updateMemberJSON"]

/-- The curated plan/billing list (indexer.js:143-150). -/
def planMethodNames : List (List Char) :=
  [s2l "purchasePlansWithCheckout", s2l "openBillingPortal",
   s2l "getActivePlans", s2l "updatePlan", s2l "cancelPlan",
   s2l "getMemberPlans"]

/-- The Index document of generateIndex (indexer.js:153-171); the
quickReference object is flattened into its three fixed groups. -/
structure IndexDoc where
  version : List Char
  totalMethods : Nat
  lastUpdated : List Char
  categories : List (List Char × List MethodRec)
  searchKeywords : List (List Char × List (List Char))
  quickRefAuthentication : List (List Char)
  quickRefMembers : List (List Char)
  quickRefPlans : List (List Char)
  allMethods : List AllMethodEntry
deriving DecidableEq, Repr

/-- The filter building each quickReference group (indexer.js:160-162):
keep a curated name when this.methods has a method of that name. -/
def presentOf (st : ScanState) (names : List (List Char)) : List (List Char) :=
  names.filter (fun n => st.methods.any (fun m => m.name == n))

/-- generateIndex (indexer.js:118-174); the wall-clock lastUpdated value is
passed in as a parameter. -/
def generateIndex (st : ScanState) (now : List Char) : IndexDoc :=
  { version := s2l "2.0.0",
    totalMethods := st.methods.length,
    lastUpdated := now,
    categories := st.categories,
    searchKeywords := st.searchKeywords,
    quickRefAuthentication := presentOf st authMethodNames,
    quickRefMembers := presentOf st memberMethodNames,
    quickRefPlans := presentOf st planMethodNames,
    allMethods := st.methods.map (fun m =>
      { name := m.name, category := m.category, signature := m.signature,
        returns := m.returns,
        docLocation := (s2l "complete.md#L") ++ Nat.toDigits 10 m.lineNumber }) }

/-! ## The section patcher (bin/install.js, appendToFile / removeFromFile) -/

/-- The four observable outcomes of one patch call, matching the four
console branches of updateClaudeFile / appendToFile. -/
inductive PatchResult where
  | created
  | replaced
  | appendedNew
  | appendedCorrupted
deriving DecidableEq, Repr

/-- appendToFile (install.js:209-236) on the already-read file content.
includes(markerStart) is modelled by matching on firstOcc, whose some index
is exactly the indexOf used for startIndex; endIndex keeps the JS
indexOf -1 sentinel arithmetic on Int. -/
def appendToFile (existing content S E : List Char) : List Char × PatchResult :=
  match firstOcc existing S with
  | some startIndex =>
    let endIndex : Int := indexOfI existing E + (E.length : Int)
    if endIndex > (startIndex : Int) then
      (existing.take startIndex ++ content ++ existing.drop endIndex.toNat,
       PatchResult.replaced)
    else
      (existing ++ (s2l "\n\n") ++ content, PatchResult.appendedCorrupted)
  | none => (existing ++ (s2l "\n\n") ++ content, PatchResult.appendedNew)

/-- The file-level patch operation of updateClaudeFile / updateCursorRules
(install.js:167-174 and 199-206): an absent file is created whole with the
new content, an existing one goes through appendToFile. -/
def patch (file : Option (List Char)) (content S E : List Char) : List Char × PatchResult :=
  match file with
  | none => (content, PatchResult.created)
  | some existing => appendToFile existing content S E

/-- removeFromFile (install.js:262-289) on the already-read content: without
the start marker, or with an invalid computed range, the content is left
untouched; otherwise the range is cut and the kept head right-trimmed. -/
def removeFromFile (content S E : List Char) : List Char :=
  match firstOcc content S with
  | some startIndex =>
    let endIndex : Int := indexOfI content E + (E.length : Int)
    if endIndex > (startIndex : Int) then
      trimEnd (content.take startIndex) ++ content.drop endIndex.toNat
    else content
  | none => content

/-- removeFromFile at file level: an absent target is returned early
(install.js:265-267), so no file appears. -/
def removeFile (file : Option (List Char)) (S E : List Char) : Option (List Char) :=
  file.map (fun c => removeFromFile c S E)

/-! ## Claim theorems: concrete evaluations -/

/-- Claim C1 (code behavior at the claimed input): on the source text of the
scenario, parseDocumentation yields exactly ONE descriptor — the logout one,
with empty signature and returns — not the two descriptors the claim states:
the login descriptor is overwritten by the fresh logout record when the
logout heading is scanned (indexer.js:33 runs before the flush check at
indexer.js:61-66, and that check compares the line against the NEW name, so
it never flushes the old method on a canonical heading). -/
theorem c1_scenario_eval :
    (parseDocumentation (s2l "# Authentication\n### login()\n...await memberstack.login(email)...\nPromise<Member>\n### logout()\n")).methods =
      [⟨s2l "logout", s2l "authentication", 5, [], [], [], []⟩] := by
  decide

/-- Claim C2 (code behavior at a restated identical heading): scanning the
line of text three-hashes-login-parens a second time while the login method
is open with a captured signature is NOT a no-op: the open descriptor is
replaced by a fresh record whose lineNumber is the new line and whose
captured signature is lost. -/
theorem c2_restated_heading_eval :
    (parseDocumentation (s2l "### login()\nawait memberstack.login(email)\n### login()")).methods =
      [⟨s2l "login", s2l "general", 3, [], [], [], []⟩] ∧
    (parseDocumentation (s2l "### login()\nawait memberstack.login(email)\n### login()")).methods ≠
      [⟨s2l "login", s2l "general", 1, s2l "login(email)", [], [], []⟩] := by
  constructor
  · decide
  · decide

/-- Claim C4 (code behavior at the failing input): the file content
ab-S-xyz contains the start marker at index 2 and no end marker at all, yet
with the 17-character end marker the sentinel arithmetic gives
endIndex = -1 + 17 = 16 > 2, so appendToFile takes the REPLACE branch,
reports replaced (not the appended-corrupted result), truncates the bytes
from the marker onward, and shrinks the file from 8 to 5 characters —
existing content IS deleted. -/
theorem c4_truncation_eval :
    appendToFile (s2l "ab<S>xyz") (s2l "NEW") (s2l "<S>") (s2l "<END-MARKER-LONG>") =
      (s2l "abNEW", PatchResult.replaced) ∧
    (s2l "abNEW").length < (s2l "ab<S>xyz").length ∧
    firstOcc (s2l "ab<S>xyz") (s2l "<END-MARKER-LONG>") = none := by
  refine ⟨by decide, by decide, by decide⟩

/-- Claim C5 (code behavior at the failing input): on the same corrupted
file (start marker present, end marker absent, long end marker), the
sentinel arithmetic makes the computed range look valid, so removeFromFile
DOES modify the content — the result is not byte-for-byte identical. -/
theorem c5_modification_eval :
    removeFromFile (s2l "ab<S>xyz") (s2l "<S>") (s2l "<END-MARKER-LONG>") = s2l "ab" ∧
    s2l "ab" ≠ s2l "ab<S>xyz" ∧
    firstOcc (s2l "ab<S>xyz") (s2l "<END-MARKER-LONG>") = none := by
  refine ⟨by decide, by decide, by decide⟩

/-- Claim C3 is false as stated: with two invocation lines while the login
method is open, the captured signature is that of the LAST matching line,
not the first — the capture at indexer.js:48 overwrites unconditionally. -/
theorem c3_counterexample :
    ((parseDocumentation (s2l "### login()\nawait memberstack.login(a)\nawait memberstack.login(b)")).methods.map
        (fun m => m.signature)) = [s2l "login(b)"] ∧
    s2l "login(b)" ≠ s2l "login(a)" := by
  refine ⟨by decide, by decide⟩

/-- Claim C6 is false as stated: with section content that does not contain
the markers, the first patch of an absent file creates the content and the
second patch appends a duplicate, so patching twice differs from patching
once. -/
theorem c6_counterexample :
    (patch (some ((patch none (s2l "X") (s2l "<S>") (s2l "<E>")).1)) (s2l "X") (s2l "<S>") (s2l "<E>")).1 ≠
      (patch none (s2l "X") (s2l "<S>") (s2l "<E>")).1 := by
  decide

/-- Claim C7 is false as stated: for a host file with content A and section
content X carrying no markers, patch appends and the following remove is a
no-op (no start marker in the file), so the result keeps the appended
section and is not the pre-patch content, which has no trailing whitespace
to trim. -/
theorem c7_counterexample :
    removeFromFile (patch (some (s2l "A")) (s2l "X") (s2l "<S>") (s2l "<E>")).1 (s2l "<S>") (s2l "<E>") =
      s2l "A\n\nX" ∧
    s2l "A\n\nX" ≠ s2l "A" ∧ trimEnd (s2l "A") = s2l "A" := by
  refine ⟨by decide, by decide, by decide⟩

/-- Claim C8 is false as stated: removeFromFile right-trims the text kept
before the start marker, so that text IS modified — here the three
characters before the marker become one. -/
theorem c8_counterexample :
    removeFromFile (s2l "a \n<S>m<E>") (s2l "<S>") (s2l "<E>") = s2l "a" ∧
    firstOcc (s2l "a \n<S>m<E>") (s2l "<S>") = some 3 ∧
    (removeFromFile (s2l "a \n<S>m<E>") (s2l "<S>") (s2l "<E>")).take 3 ≠
      (s2l "a \n<S>m<E>").take 3 := by
  refine ⟨by decide, by decide, by decide⟩

/-- Claim C3 amended: while a method descriptor is open and the scanned line
is neither kind of heading, a line matching the invocation pattern sets the
signature to THAT match — overwriting whatever was captured before
(last-match-wins) — and a line matching the typed-return annotation likewise
overwrites returns. -/
theorem c3_last_match_wins (st : ScanState) (line : List Char) (m : MethodRec)
    (hcur : st.currentMethod = some m)
    (hhead : methodHeadMatch line = none)
    (hflush : hh2Match line = false) :
    (∀ n p, includesS line (s2l "await memberstack.") = true → findSig line = some (n, p) →
      (stepLine st line).currentMethod.map (fun r => r.signature) =
        some (n ++ ['('] ++ p ++ [')'])) ∧
    (∀ rv, includesS line (s2l "Promise<") = true → findRet line = some rv →
      (stepLine st line).currentMethod.map (fun r => r.returns) =
        some ((s2l "Promise<") ++ rv ++ ['>'])) := by
  constructor
  · intro n p hinc hsig
    by_cases hp : includesS line (s2l "Promise<") = true
    · cases hr : findRet line with
      | none => simp [stepLine, openSlot, captureSig, captureRet, hcur, hhead, hflush, hinc, hsig, hp, hr]
      | some rv => simp [stepLine, openSlot, captureSig, captureRet, hcur, hhead, hflush, hinc, hsig, hp, hr]
    · simp [stepLine, openSlot, captureSig, captureRet, hcur, hhead, hflush, hinc, hsig, hp]
  · intro rv hp hret
    by_cases hi : includesS line (s2l "await memberstack.") = true
    · cases hs : findSig line with
      | none => simp [stepLine, openSlot, captureSig, captureRet, hcur, hhead, hflush, hp, hret, hi, hs]
      | some np => simp [stepLine, openSlot, captureSig, captureRet, hcur, hhead, hflush, hp, hret, hi, hs]
    · simp [stepLine, openSlot, captureSig, captureRet, hcur, hhead, hflush, hp, hret, hi]

/-- Witness for c3_last_match_wins: a state with an open login descriptor
whose signature was already captured, stepped on a fresh invocation line. -/
theorem c3_last_match_wins_witness :
    (stepLine
        ⟨s2l "general", some ⟨s2l "login", s2l "general", 1, s2l "old(x)", [], [], []⟩,
         2, [], [], []⟩
        (s2l "await memberstack.login(email)")).currentMethod.map (fun r => r.signature) =
      some ((s2l "login") ++ ['('] ++ (s2l "email") ++ [')']) :=
  (c3_last_match_wins
      ⟨s2l "general", some ⟨s2l "login", s2l "general", 1, s2l "old(x)", [], [], []⟩,
       2, [], [], []⟩
      (s2l "await memberstack.login(email)")
      ⟨s2l "login", s2l "general", 1, s2l "old(x)", [], [], []⟩
      rfl (by decide) (by decide)).1
    (s2l "login") (s2l "email") (by decide) (by decide)

/-! ## Helper lemmas about the patcher -/

lemma firstOcc_le_length (s pat : List Char) (n : Nat) (h : firstOcc s pat = some n) :
    n ≤ s.length := by
  induction s generalizing n with
  | nil =>
    unfold firstOcc at h
    split at h <;> simp_all
  | cons c t ih =>
    unfold firstOcc at h
    split at h
    · simp_all
      omega
    · rcases Option.map_eq_some'.mp h with ⟨k, hk, rfl⟩
      exact Nat.succ_le_succ (ih k hk)

lemma appendToFile_replace (existing content S E : List Char) (s : Nat)
    (hS : firstOcc existing S = some s)
    (hgt : indexOfI existing E + (E.length : Int) > (s : Int)) :
    appendToFile existing content S E =
      (existing.take s ++ content ++
        existing.drop (indexOfI existing E + (E.length : Int)).toNat,
       PatchResult.replaced) := by
  unfold appendToFile
  rw [hS]
  simp [hgt]

lemma appendToFile_no_marker (existing content S E : List Char)
    (hS : firstOcc existing S = none) :
    appendToFile existing content S E =
      (existing ++ (s2l "\n\n") ++ content, PatchResult.appendedNew) := by
  unfold appendToFile
  rw [hS]

lemma appendToFile_corrupted (existing content S E : List Char) (s : Nat)
    (hS : firstOcc existing S = some s)
    (hle : ¬ indexOfI existing E + (E.length : Int) > (s : Int)) :
    appendToFile existing content S E =
      (existing ++ (s2l "\n\n") ++ content, PatchResult.appendedCorrupted) := by
  unfold appendToFile
  rw [hS]
  simp only [if_neg hle]

lemma removeFromFile_cut (content S E : List Char) (s : Nat)
    (hS : firstOcc content S = some s)
    (hgt : indexOfI content E + (E.length : Int) > (s : Int)) :
    removeFromFile content S E =
      trimEnd (content.take s) ++
        content.drop (indexOfI content E + (E.length : Int)).toNat := by
  unfold removeFromFile
  rw [hS]
  simp [hgt]

lemma trimEnd_append_nl2 (a : List Char) : trimEnd (a ++ (s2l "\n\n")) = trimEnd a := by
  simp [trimEnd, s2l, List.dropWhile, jsWs]

/-- Claim C6 amended: patching twice equals patching once PROVIDED the
section content carries the marker pair itself — its first occurrence of S
at position 0 and its first occurrence of E as its final suffix — and the
pre-existing host content (when the file exists) contains no occurrence of
S, nor stray occurrences that would shadow the markers of the installed
section (the firstOcc hypotheses on the appended whole).  Without such
provisos the second patch can append a duplicate (see the counterexample). -/
theorem c6_idempotent_amended (g c S E : List Char)
    (hc : 0 < c.length) (hEc : E.length ≤ c.length)
    (h0 : firstOcc c S = some 0)
    (hE : firstOcc c E = some (c.length - E.length))
    (hgS : firstOcc g S = none)
    (hS2 : firstOcc (g ++ s2l "\n\n" ++ c) S = some (g.length + 2))
    (hE2 : firstOcc (g ++ s2l "\n\n" ++ c) E = some (g.length + 2 + (c.length - E.length))) :
    (patch (some ((patch none c S E).1)) c S E).1 = (patch none c S E).1 ∧
    (patch (some ((patch (some g) c S E).1)) c S E).1 = (patch (some g) c S E).1 := by
  have hnl : (s2l "\n\n").length = 2 := rfl
  constructor
  · show (appendToFile c c S E).1 = c
    have hidx : indexOfI c E = ((c.length - E.length : Nat) : Int) := by
      unfold indexOfI; rw [hE]
    have hsum : indexOfI c E + (E.length : Int) = ((c.length : Nat) : Int) := by
      rw [hidx]; omega
    have hgt : indexOfI c E + (E.length : Int) > ((0 : Nat) : Int) := by
      rw [hsum]; exact_mod_cast hc
    rw [appendToFile_replace c c S E 0 h0 hgt]
    simp only [hsum, List.take_zero, List.nil_append, Int.toNat_natCast, List.drop_length,
      List.append_nil]
  · have hpatch : (patch (some g) c S E).1 = g ++ s2l "\n\n" ++ c := by
      show (appendToFile g c S E).1 = _
      rw [appendToFile_no_marker g c S E hgS]
    rw [hpatch]
    have hlen12 : (g ++ s2l "\n\n").length = g.length + 2 := by
      rw [List.length_append, hnl]
    have hlenall : (g ++ s2l "\n\n" ++ c).length = g.length + 2 + c.length := by
      rw [List.length_append, hlen12]
    have hidx2 : indexOfI (g ++ s2l "\n\n" ++ c) E =
        ((g.length + 2 + (c.length - E.length) : Nat) : Int) := by
      unfold indexOfI; rw [hE2]
    have hsum2 : indexOfI (g ++ s2l "\n\n" ++ c) E + (E.length : Int) =
        ((g.length + 2 + c.length : Nat) : Int) := by
      rw [hidx2]; omega
    have hgt2 : indexOfI (g ++ s2l "\n\n" ++ c) E + (E.length : Int) >
        ((g.length + 2 : Nat) : Int) := by
      rw [hsum2]; omega
    show (appendToFile (g ++ s2l "\n\n" ++ c) c S E).1 = _
    rw [appendToFile_replace _ c S E (g.length + 2) hS2 hgt2]
    show (g ++ s2l "\n\n" ++ c).take (g.length + 2) ++ c ++ _ = _
    have etake : (g ++ s2l "\n\n" ++ c).take (g.length + 2) = g ++ s2l "\n\n" := by
      rw [← hlen12]; exact List.take_left _ _
    have edrop : (g ++ s2l "\n\n" ++ c).drop
        ((indexOfI (g ++ s2l "\n\n" ++ c) E + (E.length : Int)).toNat) = [] := by
      rw [hsum2, Int.toNat_natCast, ← hlenall, List.drop_length]
    rw [etake, edrop, List.append_nil]

/-- Witness for c6_idempotent_amended at a concrete host and section. -/
theorem c6_idempotent_amended_witness :
    (patch (some ((patch none (s2l "<S>mid<E>") (s2l "<S>") (s2l "<E>")).1))
        (s2l "<S>mid<E>") (s2l "<S>") (s2l "<E>")).1 =
      (patch none (s2l "<S>mid<E>") (s2l "<S>") (s2l "<E>")).1 ∧
    (patch (some ((patch (some (s2l "host")) (s2l "<S>mid<E>") (s2l "<S>") (s2l "<E>")).1))
        (s2l "<S>mid<E>") (s2l "<S>") (s2l "<E>")).1 =
      (patch (some (s2l "host")) (s2l "<S>mid<E>") (s2l "<S>") (s2l "<E>")).1 :=
  c6_idempotent_amended (s2l "host") (s2l "<S>mid<E>") (s2l "<S>") (s2l "<E>")
    (by decide) (by decide) (by decide) (by decide) (by decide) (by decide) (by decide)

/-- Claim C7 amended: patch followed by remove restores the host content up
to right-trimming of its trailing whitespace — the exact boundary trimming
removeFromFile applies — PROVIDED the host content contains no occurrence of
S (so the patch appends a fresh section) and the appended whole locates the
section markers of the new content as its first occurrences.  Without such
provisos the pair need not restore anything (see the counterexample). -/
theorem c7_roundtrip_amended (g c S E : List Char)
    (hc : 0 < c.length) (hEc : E.length ≤ c.length)
    (hgS : firstOcc g S = none)
    (hS2 : firstOcc (g ++ s2l "\n\n" ++ c) S = some (g.length + 2))
    (hE2 : firstOcc (g ++ s2l "\n\n" ++ c) E = some (g.length + 2 + (c.length - E.length))) :
    removeFromFile ((patch (some g) c S E).1) S E = trimEnd g := by
  have hnl : (s2l "\n\n").length = 2 := rfl
  have hpatch : (patch (some g) c S E).1 = g ++ s2l "\n\n" ++ c := by
    show (appendToFile g c S E).1 = _
    rw [appendToFile_no_marker g c S E hgS]
  rw [hpatch]
  have hlen12 : (g ++ s2l "\n\n").length = g.length + 2 := by
    rw [List.length_append, hnl]
  have hlenall : (g ++ s2l "\n\n" ++ c).length = g.length + 2 + c.length := by
    rw [List.length_append, hlen12]
  have hidx2 : indexOfI (g ++ s2l "\n\n" ++ c) E =
      ((g.length + 2 + (c.length - E.length) : Nat) : Int) := by
    unfold indexOfI; rw [hE2]
  have hsum2 : indexOfI (g ++ s2l "\n\n" ++ c) E + (E.length : Int) =
      ((g.length + 2 + c.length : Nat) : Int) := by
    rw [hidx2]; omega
  have hgt2 : indexOfI (g ++ s2l "\n\n" ++ c) E + (E.length : Int) >
      ((g.length + 2 : Nat) : Int) := by
    rw [hsum2]; omega
  rw [removeFromFile_cut _ S E (g.length + 2) hS2 hgt2]
  have etake : (g ++ s2l "\n\n" ++ c).take (g.length + 2) = g ++ s2l "\n\n" := by
    rw [← hlen12]; exact List.take_left _ _
  have edrop : (g ++ s2l "\n\n" ++ c).drop
      ((indexOfI (g ++ s2l "\n\n" ++ c) E + (E.length : Int)).toNat) = [] := by
    rw [hsum2, Int.toNat_natCast, ← hlenall, List.drop_length]
  rw [etake, edrop, List.append_nil, trimEnd_append_nl2]

/-- Witness for c7_roundtrip_amended at a concrete host and section; the
host has trailing whitespace, which the round trip trims away. -/
theorem c7_roundtrip_amended_witness :
    removeFromFile ((patch (some (s2l "host ")) (s2l "<S>mid<E>") (s2l "<S>") (s2l "<E>")).1)
        (s2l "<S>") (s2l "<E>") = trimEnd (s2l "host ") :=
  c7_roundtrip_amended (s2l "host ") (s2l "<S>mid<E>") (s2l "<S>") (s2l "<E>")
    (by decide) (by decide) (by decide) (by decide) (by decide)

/-- Claim C8 amended: appendToFile never modifies the text strictly before
the start marker (every branch), and in its replace branch the text from
the computed end position onward is kept verbatim as a suffix;
removeFromFile keeps that suffix verbatim as well, but the kept text before
the start marker is right-trimmed, not preserved byte-for-byte (see the
counterexample). -/
theorem c8_frame_amended :
    (∀ (existing c S E : List Char) (s : Nat), firstOcc existing S = some s →
      ((appendToFile existing c S E).1).take s = existing.take s) ∧
    (∀ (existing c S E : List Char) (s : Nat), firstOcc existing S = some s →
      indexOfI existing E + (E.length : Int) > (s : Int) →
      ∃ front, (appendToFile existing c S E).1 =
        front ++ existing.drop ((indexOfI existing E + (E.length : Int)).toNat)) ∧
    (∀ (content S E : List Char) (s : Nat), firstOcc content S = some s →
      indexOfI content E + (E.length : Int) > (s : Int) →
      removeFromFile content S E =
        trimEnd (content.take s) ++
          content.drop ((indexOfI content E + (E.length : Int)).toNat)) := by
  refine ⟨?_, ?_, ?_⟩
  · intro existing c S E s h
    have hsle : s ≤ existing.length := firstOcc_le_length existing S s h
    by_cases hgt : indexOfI existing E + (E.length : Int) > (s : Int)
    · rw [appendToFile_replace existing c S E s h hgt]
      show (existing.take s ++ c ++ _).take s = _
      rw [List.append_assoc, List.take_append_eq_append_take]
      have h1 : (existing.take s).length = s := by
        rw [List.length_take]; exact min_eq_left hsle
      rw [h1, Nat.sub_self, List.take_zero, List.append_nil, List.take_take,
        min_self]
    · rw [appendToFile_corrupted existing c S E s h hgt]
      show (existing ++ s2l "\n\n" ++ c).take s = _
      rw [List.append_assoc, List.take_append_eq_append_take]
      have h0 : s - existing.length = 0 := by omega
      rw [h0, List.take_zero, List.append_nil]
  · intro existing c S E s h hgt
    rw [appendToFile_replace existing c S E s h hgt]
    exact ⟨existing.take s ++ c, rfl⟩
  · intro content S E s h hgt
    exact removeFromFile_cut content S E s h hgt

/-- Witness for c8_frame_amended: the remove clause at a concrete file whose
section is bounded by a one-character head and a one-character tail. -/
theorem c8_frame_amended_witness :
    removeFromFile (s2l "p<S>m<E>q") (s2l "<S>") (s2l "<E>") =
      trimEnd ((s2l "p<S>m<E>q").take 1) ++
        (s2l "p<S>m<E>q").drop
          ((indexOfI (s2l "p<S>m<E>q") (s2l "<E>") + (((s2l "<E>").length : Nat) : Int)).toNat) :=
  c8_frame_amended.2.2 (s2l "p<S>m<E>q") (s2l "<S>") (s2l "<E>") 1 (by decide) (by decide)

/-! ## The keyword index built from a method list -/

/-- Lookup of a keyword entry in the searchKeywords table (the JS property
read this.searchKeywords[keyword]). -/
def kwLookup : List (List Char × List (List Char)) → List Char → Option (List (List Char))
  | [], _ => none
  | (k, l) :: t, kw => if k = kw then some l else kwLookup t kw

/-- The keyword index accumulated by calling addMethod over an ordered
method list: addMethod invokes addSearchKeywords once per method, in order,
starting from the empty table of the constructor. -/
def buildKeywords (ms : List MethodRec) : List (List Char × List (List Char)) :=
  ms.foldl addSearchKeywords []

/-- A method name is present in the entry of a given keyword. -/
def hasName (t : List (List Char × List (List Char))) (kw n : List Char) : Prop :=
  ∃ l, kwLookup t kw = some l ∧ n ∈ l

/-- One forward pass keeping the first occurrence of each name: a name
already seen is skipped, a new one is kept in place.  Order thus comes
directly from the input sequence, never from an accumulated entry. -/
def dedupFirstFrom (seen : List (List Char)) : List (List Char) → List (List Char)
  | [] => []
  | n :: t =>
    if n ∈ seen then dedupFirstFrom seen t
    else n :: dedupFirstFrom (n :: seen) t

/-- Reference description of first-seen order: the input names with every
later duplicate deleted. -/
def dedupFirst (A : List (List Char)) : List (List Char) := dedupFirstFrom [] A

lemma mem_dedupFirstFrom (x : List Char) (seen A : List (List Char)) :
    x ∈ dedupFirstFrom seen A ↔ x ∈ A ∧ x ∉ seen := by
  induction A generalizing seen with
  | nil => simp [dedupFirstFrom]
  | cons n t ih =>
    by_cases hn : n ∈ seen
    · simp only [dedupFirstFrom, if_pos hn, ih, List.mem_cons]
      constructor
      · rintro ⟨h1, h2⟩
        exact ⟨Or.inr h1, h2⟩
      · rintro ⟨h1 | h1, h2⟩
        · subst h1; exact absurd hn h2
        · exact ⟨h1, h2⟩
    · simp only [dedupFirstFrom, if_neg hn, List.mem_cons, ih]
      constructor
      · rintro (h1 | ⟨h1, h2⟩)
        · subst h1; exact ⟨Or.inl rfl, hn⟩
        · exact ⟨Or.inr h1, fun hx => h2 (Or.inr hx)⟩
      · rintro ⟨h1 | h1, h2⟩
        · exact Or.inl h1
        · by_cases hx : x = n
          · exact Or.inl hx
          · refine Or.inr ⟨h1, fun hc => ?_⟩
            rcases hc with h4 | h4
            · exact hx h4
            · exact h2 h4

lemma dedupFirstFrom_append_singleton (A : List (List Char))
    (seen : List (List Char)) (n : List Char) :
    dedupFirstFrom seen (A ++ [n]) =
      if n ∈ seen ∨ n ∈ A then dedupFirstFrom seen A
      else dedupFirstFrom seen A ++ [n] := by
  induction A generalizing seen with
  | nil =>
    by_cases hn : n ∈ seen
    · simp [dedupFirstFrom, hn]
    · simp [dedupFirstFrom, hn]
  | cons a t ih =>
    by_cases ha : a ∈ seen
    · simp only [List.cons_append, dedupFirstFrom, if_pos ha, List.append_eq]
      rw [ih]
      have hiff : (n ∈ seen ∨ n ∈ t) ↔ (n ∈ seen ∨ n ∈ a :: t) := by
        constructor
        · rintro (h | h)
          · exact Or.inl h
          · exact Or.inr (List.mem_cons_of_mem _ h)
        · rintro (h | h)
          · exact Or.inl h
          · rcases List.mem_cons.mp h with h2 | h2
            · subst h2; exact Or.inl ha
            · exact Or.inr h2
      by_cases hc : n ∈ seen ∨ n ∈ t
      · rw [if_pos hc, if_pos (hiff.mp hc)]
      · rw [if_neg hc, if_neg (fun h => hc (hiff.mpr h))]
    · simp only [List.cons_append, dedupFirstFrom, if_neg ha, List.append_eq]
      rw [ih]
      have hiff : (n ∈ a :: seen ∨ n ∈ t) ↔ (n ∈ seen ∨ n ∈ a :: t) := by
        constructor
        · rintro (h | h)
          · rcases List.mem_cons.mp h with h2 | h2
            · subst h2; exact Or.inr (List.mem_cons_self _ _)
            · exact Or.inl h2
          · exact Or.inr (List.mem_cons_of_mem _ h)
        · rintro (h | h)
          · exact Or.inl (List.mem_cons_of_mem _ h)
          · rcases List.mem_cons.mp h with h2 | h2
            · subst h2; exact Or.inl (List.mem_cons_self _ _)
            · exact Or.inr h2
      by_cases hc : n ∈ a :: seen ∨ n ∈ t
      · rw [if_pos hc, if_pos (hiff.mp hc)]
      · rw [if_neg hc, if_neg (fun h => hc (hiff.mpr h))]

lemma mem_dedupFirst (x : List Char) (A : List (List Char)) :
    x ∈ dedupFirst A ↔ x ∈ A := by
  simp [dedupFirst, mem_dedupFirstFrom]

lemma dedupFirst_append_singleton (A : List (List Char)) (n : List Char) :
    dedupFirst (A ++ [n]) =
      if n ∈ A then dedupFirst A else dedupFirst A ++ [n] := by
  simp [dedupFirst, dedupFirstFrom_append_singleton]

lemma addKw_nodup (t : List (List Char × List (List Char))) (kw n : List Char)
    (h : ∀ kl ∈ t, kl.2.Nodup) : ∀ kl ∈ addKw t kw n, kl.2.Nodup := by
  induction t with
  | nil =>
    intro kl hkl
    simp only [addKw, List.mem_singleton] at hkl
    subst hkl
    simp
  | cons a t ih =>
    obtain ⟨k, l⟩ := a
    intro kl hkl
    simp only [addKw] at hkl
    split at hkl
    · rcases List.mem_cons.mp hkl with h1 | h1
      · subst h1
        have hL : l.Nodup := h (k, l) (List.mem_cons_self _ _)
        by_cases hn : n ∈ l
        · simpa [hn] using hL
        · simp only [hn, if_false]
          simp [List.nodup_append, hL, hn]
      · exact h _ (List.mem_cons_of_mem _ h1)
    · rcases List.mem_cons.mp hkl with h1 | h1
      · subst h1
        exact h _ (List.mem_cons_self _ _)
      · exact ih (fun x hx => h x (List.mem_cons_of_mem _ hx)) _ h1

lemma addKw_self (t : List (List Char × List (List Char))) (kw n : List Char) :
    hasName (addKw t kw n) kw n := by
  induction t with
  | nil => exact ⟨[n], by simp [addKw, kwLookup], by simp⟩
  | cons a t ih =>
    obtain ⟨k, l⟩ := a
    by_cases hk : k = kw
    · subst hk
      by_cases hn : n ∈ l
      · exact ⟨l, by simp [addKw, kwLookup, hn], hn⟩
      · exact ⟨l ++ [n], by simp [addKw, kwLookup, hn], by simp⟩
    · obtain ⟨l2, hl2, hn2⟩ := ih
      exact ⟨l2, by simp [addKw, kwLookup, hk, hl2], hn2⟩

lemma addKw_mono (t : List (List Char × List (List Char))) (kw n kw2 n2 : List Char)
    (h : hasName t kw n) : hasName (addKw t kw2 n2) kw n := by
  induction t with
  | nil => obtain ⟨l, hl, _⟩ := h; simp [kwLookup] at hl
  | cons a t ih =>
    obtain ⟨k, l⟩ := a
    obtain ⟨l0, hl0, hn0⟩ := h
    by_cases hk2 : k = kw2
    · subst hk2
      by_cases hk : k = kw
      · subst hk
        have hll : l = l0 := by simpa [kwLookup] using hl0
        subst hll
        by_cases hn2m : n2 ∈ l
        · exact ⟨l, by simp [addKw, kwLookup, hn2m], hn0⟩
        · exact ⟨l ++ [n2], by simp [addKw, kwLookup, hn2m], List.mem_append_left _ hn0⟩
      · have hl0t : kwLookup t kw = some l0 := by simpa [kwLookup, hk] using hl0
        refine ⟨l0, ?_, hn0⟩
        simp [addKw, kwLookup, hk, hl0t]
    · by_cases hk : k = kw
      · subst hk
        have hll : l = l0 := by simpa [kwLookup] using hl0
        subst hll
        exact ⟨l, by simp [addKw, kwLookup, hk2], hn0⟩
      · have hl0t : kwLookup t kw = some l0 := by simpa [kwLookup, hk] using hl0
        obtain ⟨l2, hl2, hn2'⟩ := ih ⟨l0, hl0t, hn0⟩
        exact ⟨l2, by simp [addKw, kwLookup, hk2, hk, hl2], hn2'⟩

lemma addKw_noop (t : List (List Char × List (List Char))) (kw n : List Char)
    (l : List (List Char)) (h : kwLookup t kw = some l) (hn : n ∈ l) : addKw t kw n = t := by
  induction t with
  | nil => simp [kwLookup] at h
  | cons a t ih =>
    obtain ⟨k, lst⟩ := a
    by_cases hk : k = kw
    · subst hk
      have hll : lst = l := by simpa [kwLookup] using h
      subst hll
      simp [addKw, hn]
    · have ht : kwLookup t kw = some l := by simpa [kwLookup, hk] using h
      simp [addKw, hk, ih ht]

lemma foldl_addKw_mono (kws : List (List Char)) (nm : List Char)
    (t : List (List Char × List (List Char))) (kw n : List Char)
    (h : hasName t kw n) :
    hasName (kws.foldl (fun t2 k => addKw t2 k nm) t) kw n := by
  induction kws generalizing t with
  | nil => exact h
  | cons k2 ks ih => exact ih _ (addKw_mono t kw n k2 nm h)

lemma foldl_addKw_self (kws : List (List Char)) (nm : List Char)
    (t : List (List Char × List (List Char))) :
    ∀ kw ∈ kws, hasName (kws.foldl (fun t2 k => addKw t2 k nm) t) kw nm := by
  induction kws generalizing t with
  | nil => intro kw h; simp at h
  | cons k2 ks ih =>
    intro kw hkw
    rcases List.mem_cons.mp hkw with h1 | h1
    · subst h1
      exact foldl_addKw_mono ks nm _ kw nm (addKw_self t kw nm)
    · exact ih _ kw h1

lemma foldl_addKw_nodup (kws : List (List Char)) (nm : List Char)
    (t : List (List Char × List (List Char)))
    (h : ∀ kl ∈ t, kl.2.Nodup) :
    ∀ kl ∈ kws.foldl (fun t2 k => addKw t2 k nm) t, kl.2.Nodup := by
  induction kws generalizing t with
  | nil => exact h
  | cons k2 ks ih => exact ih _ (addKw_nodup t k2 nm h)

lemma foldl_addKw_noop (kws : List (List Char)) (nm : List Char)
    (t : List (List Char × List (List Char)))
    (h : ∀ kw ∈ kws, hasName t kw nm) :
    kws.foldl (fun t2 k => addKw t2 k nm) t = t := by
  induction kws with
  | nil => rfl
  | cons k2 ks ih =>
    obtain ⟨l, hl, hm⟩ := h k2 (List.mem_cons_self _ _)
    have hstep : addKw t k2 nm = t := addKw_noop t k2 nm l hl hm
    simp only [List.foldl_cons, hstep]
    exact ih (fun kw hkw => h kw (List.mem_cons_of_mem _ hkw))

lemma addSearchKeywords_presence (t : List (List Char × List (List Char))) (m : MethodRec) :
    ∀ kw ∈ keywordsOf m, hasName (addSearchKeywords t m) kw m.name :=
  foldl_addKw_self (keywordsOf m) m.name t

lemma addSearchKeywords_mono (t : List (List Char × List (List Char))) (m : MethodRec)
    (kw n : List Char) (h : hasName t kw n) : hasName (addSearchKeywords t m) kw n :=
  foldl_addKw_mono (keywordsOf m) m.name t kw n h

lemma addSearchKeywords_nodup (t : List (List Char × List (List Char))) (m : MethodRec)
    (h : ∀ kl ∈ t, kl.2.Nodup) : ∀ kl ∈ addSearchKeywords t m, kl.2.Nodup :=
  foldl_addKw_nodup (keywordsOf m) m.name t h

lemma addSearchKeywords_noop (t : List (List Char × List (List Char))) (m : MethodRec)
    (h : ∀ kw ∈ keywordsOf m, hasName t kw m.name) : addSearchKeywords t m = t :=
  foldl_addKw_noop (keywordsOf m) m.name t h

lemma foldl_step_mono (ms : List MethodRec) (t : List (List Char × List (List Char)))
    (kw n : List Char) (h : hasName t kw n) :
    hasName (ms.foldl addSearchKeywords t) kw n := by
  induction ms generalizing t with
  | nil => exact h
  | cons a ms ih => exact ih _ (addSearchKeywords_mono t a kw n h)

lemma foldl_step_presence (ms : List MethodRec) (t : List (List Char × List (List Char))) :
    ∀ m ∈ ms, ∀ kw ∈ keywordsOf m, hasName (ms.foldl addSearchKeywords t) kw m.name := by
  induction ms generalizing t with
  | nil => intro m h; simp at h
  | cons a ms ih =>
    intro m hm kw hkw
    rcases List.mem_cons.mp hm with h1 | h1
    · subst h1
      exact foldl_step_mono ms _ kw m.name (addSearchKeywords_presence t m kw hkw)
    · exact ih _ m h1 kw hkw

lemma foldl_step_nodup (ms : List MethodRec) (t : List (List Char × List (List Char)))
    (h : ∀ kl ∈ t, kl.2.Nodup) :
    ∀ kl ∈ ms.foldl addSearchKeywords t, kl.2.Nodup := by
  induction ms generalizing t with
  | nil => exact h
  | cons a ms ih => exact ih _ (addSearchKeywords_nodup t a h)

lemma foldl_step_noop (ms : List MethodRec) (t : List (List Char × List (List Char)))
    (h : ∀ m ∈ ms, ∀ kw ∈ keywordsOf m, hasName t kw m.name) :
    ms.foldl addSearchKeywords t = t := by
  induction ms with
  | nil => rfl
  | cons a ms ih =>
    have hstep : addSearchKeywords t a = t :=
      addSearchKeywords_noop t a (h a (List.mem_cons_self _ _))
    simp only [List.foldl_cons, hstep]
    exact ih (fun m hm kw hkw => h m (List.mem_cons_of_mem _ hm) kw hkw)

lemma kwLookup_addKw_at (t : List (List Char × List (List Char))) (kw n : List Char) :
    kwLookup (addKw t kw n) kw =
      some (match kwLookup t kw with
            | some l => if n ∈ l then l else l ++ [n]
            | none => [n]) := by
  induction t with
  | nil => simp [addKw, kwLookup]
  | cons a t ih =>
    obtain ⟨k, l⟩ := a
    by_cases hk : k = kw
    · subst hk
      simp [addKw, kwLookup]
    · simp [addKw, kwLookup, hk, ih]

lemma kwLookup_addKw_other (t : List (List Char × List (List Char)))
    (kw2 n kw : List Char) (h : kw ≠ kw2) :
    kwLookup (addKw t kw2 n) kw = kwLookup t kw := by
  induction t with
  | nil => simp [addKw, kwLookup, Ne.symm h]
  | cons a t ih =>
    obtain ⟨k, l⟩ := a
    by_cases hk2 : k = kw2
    · subst hk2
      simp [addKw, kwLookup, Ne.symm h]
    · by_cases hkk : k = kw
      · subst hkk
        simp [addKw, kwLookup, hk2]
      · simp [addKw, kwLookup, hk2, hkk, ih]

lemma kwLookup_foldl_addKw (kws : List (List Char)) (nm : List Char)
    (t : List (List Char × List (List Char))) (kw : List Char) :
    kwLookup (kws.foldl (fun t2 k => addKw t2 k nm) t) kw =
      if kw ∈ kws then
        some (match kwLookup t kw with
              | some l => if nm ∈ l then l else l ++ [nm]
              | none => [nm])
      else kwLookup t kw := by
  induction kws generalizing t with
  | nil => simp
  | cons k ks ih =>
    rw [List.foldl_cons, ih]
    by_cases hkk : kw = k
    · subst hkk
      rw [kwLookup_addKw_at]
      have hmemn : nm ∈ (match kwLookup t kw with
            | some l => if nm ∈ l then l else l ++ [nm]
            | none => [nm]) := by
        cases h : kwLookup t kw with
        | none => simp
        | some l =>
          by_cases hl : nm ∈ l
          · simp [hl]
          · simp [hl]
      by_cases hks : kw ∈ ks
      · simp [hks, hmemn]
      · simp [hks]
    · rw [kwLookup_addKw_other t k nm kw hkk]
      by_cases hks : kw ∈ ks
      · simp [hks, hkk]
      · simp [hks, hkk]

/-- The full per-keyword characterization of the built index: a keyword has
an entry exactly when some method triggers it, and the entry is the list of
the triggering methods' names in method-list order with later duplicates
dropped — first-seen order. -/
lemma buildKeywords_lookup (ms : List MethodRec) (kw : List Char) :
    kwLookup (buildKeywords ms) kw =
      if ms.filter (fun m => decide (kw ∈ keywordsOf m)) = [] then none
      else some (dedupFirst ((ms.filter (fun m => decide (kw ∈ keywordsOf m))).map
        (fun m => m.name))) := by
  induction ms using List.reverseRecOn with
  | nil => simp [buildKeywords, kwLookup]
  | append_singleton ms m ih =>
    have hfold : buildKeywords (ms ++ [m]) = addSearchKeywords (buildKeywords ms) m := by
      simp [buildKeywords, List.foldl_append]
    rw [hfold]
    show kwLookup ((keywordsOf m).foldl (fun t2 k => addKw t2 k m.name) (buildKeywords ms)) kw = _
    rw [kwLookup_foldl_addKw, ih, List.filter_append]
    by_cases hkw : kw ∈ keywordsOf m
    · have hfm : List.filter (fun m2 => decide (kw ∈ keywordsOf m2)) [m] = [m] := by
        simp [hkw]
      rw [hfm]
      simp only [hkw, if_true]
      by_cases hold : ms.filter (fun m2 => decide (kw ∈ keywordsOf m2)) = []
      · simp [hold, dedupFirst, dedupFirstFrom]
      · rw [if_neg hold]
        have hne2 : ¬ (ms.filter (fun m2 => decide (kw ∈ keywordsOf m2)) ++ [m] = []) := by
          simp
        rw [if_neg hne2]
        rw [List.map_append]
        simp only [List.map_cons, List.map_nil]
        rw [dedupFirst_append_singleton]
        by_cases hin : m.name ∈ (ms.filter (fun m2 => decide (kw ∈ keywordsOf m2))).map
            (fun m2 => m2.name)
        · rw [if_pos hin, if_pos ((mem_dedupFirst _ _).mpr hin)]
        · rw [if_neg hin, if_neg (fun h => hin ((mem_dedupFirst _ _).mp h))]
    · have hfm : List.filter (fun m2 => decide (kw ∈ keywordsOf m2)) [m] = [] := by
        simp [hkw]
      rw [hfm, List.append_nil]
      simp [hkw]

/-- Claim C9: the keyword index built from an ordered method list maps each
keyword to a duplicate-free list of method names in first-seen order — the
entry of each triggered keyword is exactly the triggering methods' names in
method-list order with later duplicates dropped (dedupFirst) — adding a
name already present in an entry leaves the table unchanged, and feeding
the same method list a second time reproduces exactly the same table. -/
theorem c9_keyword_index (ms : List MethodRec) :
    (∀ kl ∈ buildKeywords ms, kl.2.Nodup) ∧
    (∀ kw : List Char, kwLookup (buildKeywords ms) kw =
      if ms.filter (fun m => decide (kw ∈ keywordsOf m)) = [] then none
      else some (dedupFirst ((ms.filter (fun m => decide (kw ∈ keywordsOf m))).map
        (fun m => m.name)))) ∧
    buildKeywords (ms ++ ms) = buildKeywords ms ∧
    (∀ (t : List (List Char × List (List Char))) (kw n : List Char)
        (l : List (List Char)),
      kwLookup t kw = some l → n ∈ l → addKw t kw n = t) := by
  refine ⟨?_, ?_, ?_, ?_⟩
  · exact foldl_step_nodup ms [] (by simp)
  · exact buildKeywords_lookup ms
  · show (ms ++ ms).foldl addSearchKeywords [] = ms.foldl addSearchKeywords []
    rw [List.foldl_append]
    exact foldl_step_noop ms _ (fun m hm kw hkw => foldl_step_presence ms [] m hm kw hkw)
  · intro t kw n l hl hn
    exact addKw_noop t kw n l hl hn

/-- Witness for c9_keyword_index: the login entry of the table built from a
single login method has no duplicates, and for two methods sharing the
update trigger the update entry lists their names in first-seen order. -/
theorem c9_keyword_index_witness :
    ([s2l "login"] : List (List Char)).Nodup ∧
    kwLookup (buildKeywords
        [⟨s2l "updatePlan", s2l "plans", 3, [], [], [], []⟩,
         ⟨s2l "updateMember", s2l "members", 7, [], [], [], []⟩]) (s2l "update") =
      some [s2l "updatePlan", s2l "updateMember"] :=
  ⟨(c9_keyword_index [⟨s2l "login", s2l "authentication", 2, s2l "login(email)", [],
        s2l "Promise<Member>", []⟩]).1
      (s2l "login", [s2l "login"]) (by decide),
   by
    rw [(c9_keyword_index
        [⟨s2l "updatePlan", s2l "plans", 3, [], [], [], []⟩,
         ⟨s2l "updateMember", s2l "members", 7, [], [], [], []⟩]).2.1 (s2l "update")]
    decide⟩

/-! ## The category side table built by addMethod -/

/-- The categories table accumulated by calling addMethod over an ordered
method list, starting from the empty object of the constructor. -/
def buildCats (ms : List MethodRec) : List (List Char × List MethodRec) :=
  ms.foldl addToCats []

/-- The well-formedness relation tying a categories table to the method
list it was accumulated from. -/
def catsRel (ms : List MethodRec) (cats : List (List Char × List MethodRec)) : Prop :=
  (cats.map Prod.fst).Nodup ∧
  (∀ kl ∈ cats, kl.2 = ms.filter (fun m2 => m2.category == kl.1)) ∧
  ((cats.map (fun kl => kl.2.length)).sum = ms.length) ∧
  (∀ m ∈ ms, ∃ l, (m.category, l) ∈ cats)

lemma addToCats_not_mem (cats : List (List Char × List MethodRec)) (m : MethodRec)
    (h : m.category ∉ cats.map Prod.fst) :
    addToCats cats m = cats ++ [(m.category, [m])] := by
  induction cats with
  | nil => rfl
  | cons a t ih =>
    obtain ⟨k, l⟩ := a
    rw [List.map_cons] at h
    have h1 : m.category ≠ k := fun he => h (by simp [he])
    have h2 : m.category ∉ t.map Prod.fst := fun hx => h (List.mem_cons_of_mem _ hx)
    have hk : ¬ k = m.category := fun he => h1 he.symm
    simp only [addToCats, if_neg hk, List.cons_append, List.append_eq]
    rw [ih h2]

lemma addToCats_mem_split (pre post : List (List Char × List MethodRec))
    (l0 : List MethodRec) (m : MethodRec)
    (hpre : m.category ∉ pre.map Prod.fst) :
    addToCats (pre ++ (m.category, l0) :: post) m =
      pre ++ (m.category, l0 ++ [m]) :: post := by
  induction pre with
  | nil => simp [addToCats]
  | cons a t ih =>
    obtain ⟨k, l⟩ := a
    rw [List.map_cons] at hpre
    have h1 : m.category ≠ k := fun he => hpre (by simp [he])
    have h2 : m.category ∉ t.map Prod.fst := fun hx => hpre (List.mem_cons_of_mem _ hx)
    have hk : ¬ k = m.category := fun he => h1 he.symm
    simp only [List.cons_append, addToCats, if_neg hk, List.append_eq]
    rw [ih h2]

lemma catsRel_step (ms : List MethodRec) (cats : List (List Char × List MethodRec))
    (m : MethodRec) (h : catsRel ms cats) : catsRel (ms ++ [m]) (addToCats cats m) := by
  obtain ⟨hnd, hfil, hsum, hcomp⟩ := h
  by_cases hmem : m.category ∈ cats.map Prod.fst
  · obtain ⟨kl0, hkl0mem, hkl0eq⟩ := List.mem_map.mp hmem
    obtain ⟨k0, l0⟩ := kl0
    simp only at hkl0eq
    subst hkl0eq
    obtain ⟨pre, post, hsplit⟩ := List.append_of_mem hkl0mem
    subst hsplit
    rw [List.map_append, List.map_cons] at hnd
    have hmid := List.nodup_middle.mp hnd
    have hnotin : m.category ∉ pre.map Prod.fst ++ post.map Prod.fst :=
      (List.nodup_cons.mp hmid).1
    have hnd2 := (List.nodup_cons.mp hmid).2
    have hpre : m.category ∉ pre.map Prod.fst :=
      fun hx => hnotin (List.mem_append_left _ hx)
    have hpost : m.category ∉ post.map Prod.fst :=
      fun hx => hnotin (List.mem_append_right _ hx)
    rw [addToCats_mem_split pre post l0 m hpre]
    refine ⟨?_, ?_, ?_, ?_⟩
    · rw [List.map_append, List.map_cons]
      exact List.nodup_middle.mpr (List.nodup_cons.mpr ⟨hnotin, hnd2⟩)
    · intro kl hkl
      rcases List.mem_append.mp hkl with hin | hin
      · have hne : ¬ (m.category == kl.1) = true := by
          intro hb
          exact hpre (by
            rw [eq_of_beq hb]
            exact List.mem_map_of_mem Prod.fst hin)
        have hold := hfil kl (List.mem_append_left _ hin)
        rw [List.filter_append, hold]
        simp [hne]
      · rcases List.mem_cons.mp hin with hin2 | hin2
        · subst hin2
          have hold := hfil (m.category, l0)
            (List.mem_append_right _ (List.mem_cons_self _ _))
          simp only at hold
          rw [List.filter_append]
          simp [← hold]
        · have hne : ¬ (m.category == kl.1) = true := by
            intro hb
            exact hpost (by
              rw [eq_of_beq hb]
              exact List.mem_map_of_mem Prod.fst hin2)
          have hold := hfil kl
            (List.mem_append_right _ (List.mem_cons_of_mem _ hin2))
          rw [List.filter_append, hold]
          simp [hne]
    · simp only [List.map_append, List.map_cons, List.sum_append, List.sum_cons,
        List.length_append, List.length_cons] at hsum ⊢
      simp only [List.length_append] at *
      omega
    · intro m2 hm2
      rcases List.mem_append.mp hm2 with hin | hin
      · obtain ⟨l, hl⟩ := hcomp m2 hin
        rcases List.mem_append.mp hl with hin2 | hin2
        · exact ⟨l, List.mem_append_left _ hin2⟩
        · rcases List.mem_cons.mp hin2 with hin3 | hin3
          · have hcat : m2.category = m.category := congrArg Prod.fst hin3
            exact ⟨l0 ++ [m], by
              rw [hcat]
              exact List.mem_append_right _ (List.mem_cons_self _ _)⟩
          · exact ⟨l, List.mem_append_right _ (List.mem_cons_of_mem _ hin3)⟩
      · have hm2e : m2 = m := by simpa using hin
        subst hm2e
        exact ⟨l0 ++ [m2], List.mem_append_right _ (List.mem_cons_self _ _)⟩
  · rw [addToCats_not_mem cats m hmem]
    refine ⟨?_, ?_, ?_, ?_⟩
    · rw [List.map_append]
      simp only [List.map_cons, List.map_nil]
      rw [List.nodup_append]
      exact ⟨hnd, List.nodup_singleton _, by simpa using hmem⟩
    · intro kl hkl
      rcases List.mem_append.mp hkl with hin | hin
      · have hne : ¬ (m.category == kl.1) = true := by
          intro hb
          exact hmem (by
            rw [eq_of_beq hb]
            exact List.mem_map_of_mem Prod.fst hin)
        have hold := hfil kl hin
        rw [List.filter_append, hold]
        simp [hne]
      · have hkl2 : kl = (m.category, [m]) := by simpa using hin
        subst hkl2
        have hnil : ms.filter (fun m2 => m2.category == m.category) = [] := by
          rw [List.filter_eq_nil_iff]
          intro m2 hm2 hb
          obtain ⟨l, hl⟩ := hcomp m2 hm2
          exact hmem (by
            rw [← eq_of_beq hb]
            exact List.mem_map_of_mem Prod.fst hl)
        rw [List.filter_append]
        simp [hnil]
    · simp only [List.map_append, List.map_cons, List.map_nil, List.sum_append,
        List.sum_cons, List.sum_nil, List.length_append, List.length_cons,
        List.length_nil, List.length_singleton] at hsum ⊢
      omega
    · intro m2 hm2
      rcases List.mem_append.mp hm2 with hin | hin
      · obtain ⟨l, hl⟩ := hcomp m2 hin
        exact ⟨l, List.mem_append_left _ hl⟩
      · have hm2e : m2 = m := by simpa using hin
        subst hm2e
        exact ⟨[m2], List.mem_append_right _ (List.mem_cons_self _ _)⟩

lemma buildCats_rel (ms : List MethodRec) : catsRel ms (buildCats ms) := by
  induction ms using List.reverseRecOn with
  | nil =>
    exact ⟨by simp [buildCats], by simp [buildCats], by simp [buildCats], by simp⟩
  | append_singleton ms m ih =>
    have hfold : buildCats (ms ++ [m]) = addToCats (buildCats ms) m := by
      simp [buildCats, List.foldl_append]
    rw [hfold]
    exact catsRel_step ms _ m ih

/-- Each scanned line either leaves the accumulated indexer state untouched
or performs exactly one addMethod. -/
lemma stepLine_effect (st : ScanState) (line : List Char) :
    ((stepLine st line).methods = st.methods ∧
     (stepLine st line).categories = st.categories ∧
     (stepLine st line).searchKeywords = st.searchKeywords) ∨
    (∃ m, (stepLine st line).methods = st.methods ++ [m] ∧
      (stepLine st line).categories = addToCats st.categories m ∧
      (stepLine st line).searchKeywords = addSearchKeywords st.searchKeywords m) := by
  unfold stepLine
  dsimp only
  repeat' split
  all_goals
    first
      | exact Or.inl ⟨rfl, rfl, rfl⟩
      | exact Or.inr ⟨_, rfl, rfl, rfl⟩

/-- The accumulated categories and searchKeywords tables of a state are the
tables built from its accumulated method list. -/
def goodState (st : ScanState) : Prop :=
  st.categories = buildCats st.methods ∧
  st.searchKeywords = buildKeywords st.methods

lemma goodState_add (st : ScanState) (m : MethodRec) (h : goodState st) :
    goodState (addMethodState st m) := by
  obtain ⟨h1, h2⟩ := h
  constructor
  · show addToCats st.categories m = buildCats (st.methods ++ [m])
    rw [h1]
    simp [buildCats, List.foldl_append]
  · show addSearchKeywords st.searchKeywords m = buildKeywords (st.methods ++ [m])
    rw [h2]
    simp [buildKeywords, List.foldl_append]

lemma goodState_step (st : ScanState) (line : List Char) (h : goodState st) :
    goodState (stepLine st line) := by
  rcases stepLine_effect st line with ⟨h1, h2, h3⟩ | ⟨m, h1, h2, h3⟩
  · exact ⟨by rw [h2, h1]; exact h.1, by rw [h3, h1]; exact h.2⟩
  · refine ⟨?_, ?_⟩
    · rw [h2, h1, h.1]
      simp [buildCats, List.foldl_append]
    · rw [h3, h1, h.2]
      simp [buildKeywords, List.foldl_append]

lemma goodState_fold (lines : List (List Char)) (st : ScanState) (h : goodState st) :
    goodState (lines.foldl stepLine st) := by
  induction lines generalizing st with
  | nil => exact h
  | cons a ls ih => exact ih _ (goodState_step st a h)

lemma parse_good (content : List Char) : goodState (parseDocumentation content) := by
  unfold parseDocumentation finishScan
  have hfold : goodState ((splitNL content).foldl stepLine initState) :=
    goodState_fold (splitNL content) initState ⟨rfl, rfl⟩
  split
  · exact goodState_add _ _ hfold
  · exact hfold

/-- Claim C10: in every generated Index document, totalMethods equals the
length of allMethods, which equals the sum over all categories of the length
of that category's method list, and every scanned method descriptor appears
in exactly one category's list — the list of its own category. -/
theorem c10_index_invariants (content now : List Char) :
    (generateIndex (parseDocumentation content) now).totalMethods =
      (generateIndex (parseDocumentation content) now).allMethods.length ∧
    (generateIndex (parseDocumentation content) now).totalMethods =
      ((generateIndex (parseDocumentation content) now).categories.map
        (fun kl => kl.2.length)).sum ∧
    ∀ m ∈ (parseDocumentation content).methods,
      (∃ l, (m.category, l) ∈ (generateIndex (parseDocumentation content) now).categories ∧
        m ∈ l) ∧
      ∀ kl ∈ (generateIndex (parseDocumentation content) now).categories,
        m ∈ kl.2 → kl.1 = m.category := by
  have hrel : catsRel (parseDocumentation content).methods
      (parseDocumentation content).categories := by
    rw [(parse_good content).1]
    exact buildCats_rel _
  obtain ⟨hnd, hfil, hsum, hcomp⟩ := hrel
  refine ⟨?_, ?_, ?_⟩
  · simp [generateIndex]
  · simpa [generateIndex] using hsum.symm
  · intro m hm
    constructor
    · obtain ⟨l, hl⟩ := hcomp m hm
      refine ⟨l, by simpa [generateIndex] using hl, ?_⟩
      have hf := hfil (m.category, l) hl
      simp only at hf
      rw [hf]
      exact List.mem_filter.mpr ⟨hm, by simp⟩
    · intro kl hkl hmem
      have hf := hfil kl (by simpa [generateIndex] using hkl)
      rw [hf] at hmem
      have hb := (List.mem_filter.mp hmem).2
      exact (eq_of_beq hb).symm

/-- Witness for c10_index_invariants: the single method scanned from a
one-line document sits in the general category's list. -/
theorem c10_index_invariants_witness :
    ∃ l, ((s2l "general"),
        l) ∈ (generateIndex (parseDocumentation (s2l "### login()")) (s2l "t")).categories ∧
      (⟨s2l "login", s2l "general", 1, [], [], [], []⟩ : MethodRec) ∈ l :=
  ((c10_index_invariants (s2l "### login()") (s2l "t")).2.2
    ⟨s2l "login", s2l "general", 1, [], [], [], []⟩ (by decide)).1
